import Mathlib

/-
Verification of the Yasper command-resolution trie (yasper.py).

The Python classes are embedded shallowly:

* `YasperCommandTreeNode` (class YasperCommandTreeNode): a trie node with the
  fields `c` (the character this node represents, the root carrying the empty
  string), `children` (the ordered list of child nodes, mirroring
  YasperCommandTreeNodeChildren.childrenlist), `terminal`, and
  `maxdescendants`.  Python strings are embedded as `List Char`.
* Mutation (addCommand, updateMaxDescendants) becomes functional update: the
  in-place mutation of the child returned by getChild/addChild is rendered by
  `setChild`, which writes the updated child back at the position where
  Python's aliased object lives (the first child whose character matches, or a
  freshly appended node).
* `None` becomes `Option.none`; searchCommand returns `Option (List Char)`.
-/

/-- A node of the Yasper command search tree (class YasperCommandTreeNode).
Constructor fields, in source order of `__init__`: the represented character
`c` (a string in Python: empty for the root, one character otherwise), the
children list, the `terminal` flag, and the `maxdescendants` counter. -/
inductive YasperCommandTreeNode : Type where
  | mk : (c : List Char) → (children : List YasperCommandTreeNode) →
      (terminal : Bool) → (maxdescendants : Nat) → YasperCommandTreeNode

/-- Field accessor for `c`. -/
def YasperCommandTreeNode.c : YasperCommandTreeNode → List Char
  | .mk c _ _ _ => c

/-- Field accessor for `children` (the childrenlist of the
YasperCommandTreeNodeChildren container). -/
def YasperCommandTreeNode.children : YasperCommandTreeNode → List YasperCommandTreeNode
  | .mk _ ch _ _ => ch

/-- Field accessor for `terminal`. -/
def YasperCommandTreeNode.terminal : YasperCommandTreeNode → Bool
  | .mk _ _ t _ => t

/-- Field accessor for `maxdescendants`. -/
def YasperCommandTreeNode.maxdescendants : YasperCommandTreeNode → Nat
  | .mk _ _ _ m => m

namespace YasperCommandTreeNode

/-- YasperCommandTreeNodeChildren.getChild: scan the children list and return
the first node representing the given character (`child.c == c` in Python,
where both sides are one-character strings), or `none`. -/
def getChild : List YasperCommandTreeNode → Char → Option YasperCommandTreeNode
  | [], _ => none
  | k :: ks, x => if k.c = [x] then some k else getChild ks x

/-- Functional rendering of the in-place update performed by `addCommand`:
Python mutates, through an alias, either the first child whose character
matches (the node `getChild` returned) or the node `addChild` just appended
at the end of the list.  `setChild l x m` writes `m` at exactly that
position: it replaces the first child of `l` representing `x`, appending `m`
at the end when no child represents `x`. -/
def setChild : List YasperCommandTreeNode → Char → YasperCommandTreeNode →
    List YasperCommandTreeNode
  | [], _, m => [m]
  | k :: ks, x, m => if k.c = [x] then m :: ks else k :: setChild ks x m

/-- YasperCommandTreeNode.addCommand: recursively add a command to the
subtree rooted at this node.  An empty remaining command marks the node
terminal; otherwise the child for the next character is looked up (created
as `YasperCommandTreeNode(s[0])` when absent, i.e. `.mk [x] [] false 0`) and
the rest of the command is added below it. -/
def addCommand : YasperCommandTreeNode → List Char → YasperCommandTreeNode
  | n, [] => .mk n.c n.children true n.maxdescendants
  | n, x :: rest =>
      .mk n.c
        (setChild n.children x
          (addCommand ((getChild n.children x).getD (.mk [x] [] false 0)) rest))
        n.terminal n.maxdescendants

/-- Maximum of the `maxdescendants` fields of a list of nodes, as accumulated
by the `for child in self.children` loop of updateMaxDescendants (the loop
computes the maximum of the children's return values starting from 0). -/
def maxMdList : List YasperCommandTreeNode → Nat
  | [] => 0
  | k :: ks => max k.maxdescendants (maxMdList ks)

mutual

/-- YasperCommandTreeNode.updateMaxDescendants: recursively update every
descendant, then set this node's `maxdescendants` to the maximum of the
number of children and the children's (updated) `maxdescendants` values. -/
def updateMaxDescendants : YasperCommandTreeNode → YasperCommandTreeNode
  | .mk c ch t _ =>
      .mk c (updateMaxDescendantsList ch) t
        (max ch.length (maxMdList (updateMaxDescendantsList ch)))

/-- The recursive per-child pass of updateMaxDescendants over a children
list. -/
def updateMaxDescendantsList :
    List YasperCommandTreeNode → List YasperCommandTreeNode
  | [] => []
  | k :: ks => updateMaxDescendants k :: updateMaxDescendantsList ks

end

/-- YasperCommandTreeNode.followTrail: follow the deterministic path through
single-child descendants.  With exactly one child, a terminal node is a
stop-here-or-continue ambiguity (`None`); otherwise the single child's trail
is followed and prefixed with this node's character, `None` propagating.
With zero or several children the node's own character is returned. -/
def followTrail : YasperCommandTreeNode → Option (List Char)
  | .mk c [k] t _ =>
      if t = true then none
      else
        match followTrail k with
        | none => none
        | some subtrail => some (c ++ subtrail)
  | .mk c _ _ _ => some c

/-- YasperCommandTreeNode.searchCommand: recursively search for a command.
An empty remaining query resolves to this node's character when terminal,
else to `followTrail` when `maxdescendants == 1`, else to `None`.  A
non-empty query continues into the child for its first character when one
exists (prefixing this node's character to a successful recursive result,
propagating `None`); when no child matches, the node's character is returned
if terminal and `None` otherwise. -/
def searchCommand : YasperCommandTreeNode → List Char → Option (List Char)
  | n, [] =>
      if n.terminal = true then some n.c
      else if n.maxdescendants = 1 then followTrail n
      else none
  | n, x :: rest =>
      match getChild n.children x with
      | none => if n.terminal = true then some n.c else none
      | some k =>
          match searchCommand k rest with
          | none => none
          | some futuresearch => some (n.c ++ futuresearch)

end YasperCommandTreeNode

/-- The root node created by YasperCommandTree.__init__:
`YasperCommandTreeNode('')`. -/
def YasperCommandTree.root : YasperCommandTreeNode :=
  .mk [] [] false 0

/-- YasperCommandTree.initialize: grow the tree from a list of commands by
adding each command at the root in order, then update the maxdescendants
fields. -/
def YasperCommandTree.build (commandlist : List (List Char)) : YasperCommandTreeNode :=
  YasperCommandTreeNode.updateMaxDescendants
    (commandlist.foldl YasperCommandTreeNode.addCommand YasperCommandTree.root)

/-- YasperCommandTree.getCommand: search for `s` starting at the root. -/
def YasperCommandTree.getCommand (t : YasperCommandTreeNode) (s : List Char) :
    Option (List Char) :=
  YasperCommandTreeNode.searchCommand t s

/-- Python `str.upper` as used on command names and query tokens, embedded
as the character-wise basic-latin upper-casing `Char.toUpper`. -/
def upper (s : List Char) : List Char :=
  s.map Char.toUpper

/-- The key list of `fdict` after a sequence of registerFunction calls:
each registered name is stored upper-cased (`self.fdict[s.upper()] = ...`);
a Python dict keeps one key per distinct value, at its first-insertion
position, a later registration only overwriting the stored function. -/
def Yasper.fdictKeys (registered : List (List Char)) : List (List Char) :=
  registered.foldl (fun ks s => if upper s ∈ ks then ks else ks ++ [upper s]) []

/-- The command-resolution path of Yasper.execute composed with
Yasper.initialize: the tree is built from the (upper-cased) keys of `fdict`,
and the query token is upper-cased before getCommand is called
(`self.getCommand(inputlist[0].upper())`). -/
def Yasper.resolve (registered : List (List Char)) (query : List Char) :
    Option (List Char) :=
  YasperCommandTree.getCommand (YasperCommandTree.build (Yasper.fdictKeys registered))
    (upper query)

namespace YasperCommandTreeNode

/-- Walk the exact child chain spelled by `s`, returning the node reached. -/
def followPath : YasperCommandTreeNode → List Char → Option YasperCommandTreeNode
  | n, [] => some n
  | n, x :: rest =>
      match getChild n.children x with
      | none => none
      | some k => followPath k rest

/-- The child chain spelled by `s` exists in the subtree below `n`. -/
def hasPath (n : YasperCommandTreeNode) (s : List Char) : Bool :=
  (followPath n s).isSome

/-- The subtree below `n` stores `s` as a command: the child chain spelled by
`s` exists and ends at a terminal node. -/
def containsCmd (n : YasperCommandTreeNode) (s : List Char) : Bool :=
  match followPath n s with
  | some e => e.terminal
  | none => false

mutual

/-- Every `maxdescendants` field in the subtree holds the value
updateMaxDescendants computes for it. -/
def mdOk : YasperCommandTreeNode → Bool
  | .mk _ ch _ m => (m == max ch.length (maxMdList ch)) && mdOkList ch

/-- `mdOk` for every node of a list. -/
def mdOkList : List YasperCommandTreeNode → Bool
  | [] => true
  | k :: ks => mdOk k && mdOkList ks

end

mutual

/-- Structural well-formedness of a built subtree: a childless node is
terminal, and every child represents exactly one character and is itself
well-formed.  (The root's own `c` is the empty string and is exempt.) -/
def wfNode : YasperCommandTreeNode → Bool
  | .mk _ ch t _ => (!ch.isEmpty || t) && wfList ch

/-- `wfNode` plus the one-character condition for every node of a children
list. -/
def wfList : List YasperCommandTreeNode → Bool
  | [] => true
  | k :: ks => (k.c.length == 1) && wfNode k && wfList ks

end

theorem getChild_c {x : Char} {k : YasperCommandTreeNode} :
    ∀ {l : List YasperCommandTreeNode}, getChild l x = some k → k.c = [x] := by
  intro l
  induction l with
  | nil => intro h; simp [getChild] at h
  | cons a l ih =>
      intro h
      simp only [getChild] at h
      by_cases hc : a.c = [x]
      · rw [if_pos hc] at h
        injection h with h
        rw [← h]
        exact hc
      · rw [if_neg hc] at h
        exact ih h

theorem getChild_mem {x : Char} {k : YasperCommandTreeNode} :
    ∀ {l : List YasperCommandTreeNode}, getChild l x = some k → k ∈ l := by
  intro l
  induction l with
  | nil => intro h; simp [getChild] at h
  | cons a l ih =>
      intro h
      simp only [getChild] at h
      by_cases hc : a.c = [x]
      · rw [if_pos hc] at h
        injection h with h
        rw [← h]
        exact List.mem_cons_self a l
      · rw [if_neg hc] at h
        exact List.mem_cons_of_mem _ (ih h)

theorem getChild_setChild_self {x : Char} {m : YasperCommandTreeNode}
    (hm : m.c = [x]) :
    ∀ l : List YasperCommandTreeNode, getChild (setChild l x m) x = some m := by
  intro l
  induction l with
  | nil => simp [setChild, getChild, hm]
  | cons a l ih =>
      by_cases hc : a.c = [x]
      · simp only [setChild, if_pos hc, getChild, if_pos hm]
      · simp only [setChild, if_neg hc, getChild, if_neg hc]
        exact ih

theorem getChild_setChild_other {x y : Char} {m : YasperCommandTreeNode}
    (hm : m.c = [x]) (hxy : y ≠ x) :
    ∀ l : List YasperCommandTreeNode,
      getChild (setChild l x m) y = getChild l y := by
  have hxy' : ([x] : List Char) ≠ [y] := by
    intro hh
    injection hh with h1 _
    exact hxy h1.symm
  have hmy : m.c ≠ [y] := hm ▸ hxy'
  intro l
  induction l with
  | nil => simp only [setChild, getChild, if_neg hmy]
  | cons a l ih =>
      by_cases hc : a.c = [x]
      · have hay : a.c ≠ [y] := hc ▸ hxy'
        simp only [setChild, if_pos hc, getChild, if_neg hmy, if_neg hay]
      · simp only [setChild, if_neg hc, getChild]
        by_cases hay : a.c = [y]
        · simp only [if_pos hay]
        · simp only [if_neg hay]
          exact ih

theorem setChild_ne_nil {l : List YasperCommandTreeNode} {x : Char}
    {m : YasperCommandTreeNode} : setChild l x m ≠ [] := by
  cases l with
  | nil => simp [setChild]
  | cons a l =>
      by_cases hc : a.c = [x] <;> simp [setChild, hc]

theorem addCommand_c (n : YasperCommandTreeNode) (s : List Char) :
    (addCommand n s).c = n.c := by
  cases s <;> rfl

theorem addCommand_terminal_nil (n : YasperCommandTreeNode) :
    (addCommand n []).terminal = true := rfl

theorem addCommand_terminal_cons (n : YasperCommandTreeNode) (x : Char)
    (rest : List Char) : (addCommand n (x :: rest)).terminal = n.terminal := rfl

theorem addCommand_children_nil (n : YasperCommandTreeNode) :
    (addCommand n []).children = n.children := rfl

theorem addCommand_children_cons (n : YasperCommandTreeNode) (x : Char)
    (rest : List Char) :
    (addCommand n (x :: rest)).children =
      setChild n.children x
        (addCommand ((getChild n.children x).getD (.mk [x] [] false 0)) rest) := rfl

theorem containsCmd_nil (n : YasperCommandTreeNode) :
    containsCmd n [] = n.terminal := rfl

theorem containsCmd_cons_some {n k : YasperCommandTreeNode} {x : Char}
    (h : getChild n.children x = some k) (rest : List Char) :
    containsCmd n (x :: rest) = containsCmd k rest := by
  simp [containsCmd, followPath, h]

theorem containsCmd_cons_none {n : YasperCommandTreeNode} {x : Char}
    (h : getChild n.children x = none) (rest : List Char) :
    containsCmd n (x :: rest) = false := by
  simp [containsCmd, followPath, h]

theorem hasPath_nil (n : YasperCommandTreeNode) : hasPath n [] = true := rfl

theorem hasPath_cons_some {n k : YasperCommandTreeNode} {x : Char}
    (h : getChild n.children x = some k) (rest : List Char) :
    hasPath n (x :: rest) = hasPath k rest := by
  simp [hasPath, followPath, h]

theorem hasPath_cons_none {n : YasperCommandTreeNode} {x : Char}
    (h : getChild n.children x = none) (rest : List Char) :
    hasPath n (x :: rest) = false := by
  simp [hasPath, followPath, h]

theorem getD_fresh_c (n : YasperCommandTreeNode) (x : Char) :
    ((getChild n.children x).getD (.mk [x] [] false 0)).c = [x] := by
  cases heq : getChild n.children x with
  | none => rfl
  | some k => simpa using getChild_c heq

theorem containsCmd_fresh (x : Char) (q : List Char) :
    containsCmd (.mk [x] [] false 0) q = false := by
  cases q with
  | nil => rfl
  | cons y rest => exact containsCmd_cons_none (by rfl) rest

theorem containsCmd_addCommand_self :
    ∀ (s : List Char) (n : YasperCommandTreeNode),
      containsCmd (addCommand n s) s = true := by
  intro s
  induction s with
  | nil => intro n; rfl
  | cons x rest ih =>
      intro n
      have hc : (addCommand ((getChild n.children x).getD (.mk [x] [] false 0)) rest).c
          = [x] := by rw [addCommand_c]; exact getD_fresh_c n x
      have hget :
          getChild (addCommand n (x :: rest)).children x =
            some (addCommand ((getChild n.children x).getD (.mk [x] [] false 0)) rest) := by
        rw [addCommand_children_cons]
        exact getChild_setChild_self hc _
      rw [containsCmd_cons_some hget]
      exact ih _

theorem containsCmd_addCommand_mono :
    ∀ (s t : List Char) (n : YasperCommandTreeNode),
      containsCmd n t = true → containsCmd (addCommand n s) t = true := by
  intro s
  induction s with
  | nil =>
      intro t n h
      cases t with
      | nil => rfl
      | cons y q =>
          cases heq : getChild n.children y with
          | none => rw [containsCmd_cons_none heq] at h; exact absurd h (by simp)
          | some k =>
              rw [containsCmd_cons_some heq] at h
              have heq' : getChild (addCommand n []).children y = some k := by
                rw [addCommand_children_nil]; exact heq
              rw [containsCmd_cons_some heq']
              exact h
  | cons x rest ih =>
      intro t n h
      cases t with
      | nil =>
          rw [containsCmd_nil] at h
          rw [containsCmd_nil, addCommand_terminal_cons]
          exact h
      | cons y q =>
          cases heq : getChild n.children y with
          | none => rw [containsCmd_cons_none heq] at h; exact absurd h (by simp)
          | some k =>
              rw [containsCmd_cons_some heq] at h
              have hc : (addCommand ((getChild n.children x).getD
                  (.mk [x] [] false 0)) rest).c = [x] := by
                rw [addCommand_c]; exact getD_fresh_c n x
              by_cases hxy : y = x
              · subst hxy
                have hk : (getChild n.children y).getD (.mk [y] [] false 0) = k := by
                  rw [heq]; rfl
                have hget : getChild (addCommand n (y :: rest)).children y =
                    some (addCommand k rest) := by
                  rw [addCommand_children_cons, hk]
                  exact getChild_setChild_self (hk ▸ hc) _
                rw [containsCmd_cons_some hget]
                exact ih q k h
              · have hget : getChild (addCommand n (x :: rest)).children y = some k := by
                  rw [addCommand_children_cons,
                    getChild_setChild_other hc hxy]
                  exact heq
                rw [containsCmd_cons_some hget]
                exact h

theorem containsCmd_addCommand_inv :
    ∀ (s t : List Char) (n : YasperCommandTreeNode),
      containsCmd (addCommand n s) t = true → containsCmd n t = true ∨ t = s := by
  intro s
  induction s with
  | nil =>
      intro t n h
      cases t with
      | nil => exact Or.inr rfl
      | cons y q =>
          cases heq : getChild n.children y with
          | none =>
              have heq' : getChild (addCommand n []).children y = none := by
                rw [addCommand_children_nil]; exact heq
              rw [containsCmd_cons_none heq'] at h
              exact absurd h (by simp)
          | some k =>
              have heq' : getChild (addCommand n []).children y = some k := by
                rw [addCommand_children_nil]; exact heq
              rw [containsCmd_cons_some heq'] at h
              exact Or.inl ((containsCmd_cons_some heq q).symm ▸ h)
  | cons x rest ih =>
      intro t n h
      cases t with
      | nil =>
          rw [containsCmd_nil, addCommand_terminal_cons] at h
          exact Or.inl h
      | cons y q =>
          have hc : (addCommand ((getChild n.children x).getD
              (.mk [x] [] false 0)) rest).c = [x] := by
            rw [addCommand_c]; exact getD_fresh_c n x
          by_cases hxy : y = x
          · subst hxy
            have hget : getChild (addCommand n (y :: rest)).children y =
                some (addCommand ((getChild n.children y).getD
                  (.mk [y] [] false 0)) rest) := by
              rw [addCommand_children_cons]
              exact getChild_setChild_self hc _
            rw [containsCmd_cons_some hget] at h
            rcases ih q _ h with h' | h'
            · cases heq : getChild n.children y with
              | none =>
                  rw [heq] at h'
                  simp only [Option.getD] at h'
                  rw [containsCmd_fresh] at h'
                  exact absurd h' (by simp)
              | some k =>
                  rw [heq] at h'
                  simp only [Option.getD] at h'
                  rw [containsCmd_cons_some heq]
                  exact Or.inl h'
            · exact Or.inr (by rw [h'])
          · have hget : getChild (addCommand n (x :: rest)).children y =
                getChild n.children y := by
              rw [addCommand_children_cons]
              exact getChild_setChild_other hc hxy _
            cases heq : getChild n.children y with
            | none =>
                rw [containsCmd_cons_none (hget.trans heq)] at h
                exact absurd h (by simp)
            | some k =>
                rw [containsCmd_cons_some (hget.trans heq)] at h
                rw [containsCmd_cons_some heq]
                exact Or.inl h

theorem hasPath_fresh (x : Char) (q : List Char) (h : hasPath (.mk [x] [] false 0) q = true) :
    q = [] := by
  cases q with
  | nil => rfl
  | cons y rest =>
      rw [hasPath_cons_none (by rfl)] at h
      exact absurd h (by simp)

theorem hasPath_addCommand_inv :
    ∀ (s t : List Char) (n : YasperCommandTreeNode),
      hasPath (addCommand n s) t = true →
        hasPath n t = true ∨ ∃ u, t ++ u = s := by
  intro s
  induction s with
  | nil =>
      intro t n h
      cases t with
      | nil => exact Or.inl rfl
      | cons y q =>
          cases heq : getChild n.children y with
          | none =>
              have heq' : getChild (addCommand n []).children y = none := by
                rw [addCommand_children_nil]; exact heq
              rw [hasPath_cons_none heq'] at h
              exact absurd h (by simp)
          | some k =>
              have heq' : getChild (addCommand n []).children y = some k := by
                rw [addCommand_children_nil]; exact heq
              rw [hasPath_cons_some heq'] at h
              exact Or.inl ((hasPath_cons_some heq q).symm ▸ h)
  | cons x rest ih =>
      intro t n h
      cases t with
      | nil => exact Or.inl rfl
      | cons y q =>
          have hc : (addCommand ((getChild n.children x).getD
              (.mk [x] [] false 0)) rest).c = [x] := by
            rw [addCommand_c]; exact getD_fresh_c n x
          by_cases hxy : y = x
          · subst hxy
            have hget : getChild (addCommand n (y :: rest)).children y =
                some (addCommand ((getChild n.children y).getD
                  (.mk [y] [] false 0)) rest) := by
              rw [addCommand_children_cons]
              exact getChild_setChild_self hc _
            rw [hasPath_cons_some hget] at h
            rcases ih q _ h with h' | h'
            · cases heq : getChild n.children y with
              | none =>
                  rw [heq] at h'
                  simp only [Option.getD] at h'
                  have := hasPath_fresh y q h'
                  subst this
                  exact Or.inr ⟨rest, rfl⟩
              | some k =>
                  rw [heq] at h'
                  simp only [Option.getD] at h'
                  rw [hasPath_cons_some heq]
                  exact Or.inl h'
            · rcases h' with ⟨u, hu⟩
              exact Or.inr ⟨u, by rw [List.cons_append, hu]⟩
          · have hget : getChild (addCommand n (x :: rest)).children y =
                getChild n.children y := by
              rw [addCommand_children_cons]
              exact getChild_setChild_other hc hxy _
            cases heq : getChild n.children y with
            | none =>
                rw [hasPath_cons_none (hget.trans heq)] at h
                exact absurd h (by simp)
            | some k =>
                rw [hasPath_cons_some (hget.trans heq)] at h
                rw [hasPath_cons_some heq]
                exact Or.inl h

theorem containsCmd_foldl_mono {t : List Char} :
    ∀ (L : List (List Char)) (n : YasperCommandTreeNode),
      containsCmd n t = true → containsCmd (L.foldl addCommand n) t = true := by
  intro L
  induction L with
  | nil => intro n h; exact h
  | cons s L ih =>
      intro n h
      exact ih _ (containsCmd_addCommand_mono s t n h)

theorem containsCmd_foldl_self {C : List Char} :
    ∀ (L : List (List Char)) (n : YasperCommandTreeNode), C ∈ L →
      containsCmd (L.foldl addCommand n) C = true := by
  intro L
  induction L with
  | nil => intro n h; exact absurd h (List.not_mem_nil C)
  | cons s L ih =>
      intro n h
      rcases List.mem_cons.mp h with h' | h'
      · subst h'
        exact containsCmd_foldl_mono L _ (containsCmd_addCommand_self C n)
      · exact ih _ h'

theorem containsCmd_foldl_inv {t : List Char} :
    ∀ (L : List (List Char)) (n : YasperCommandTreeNode),
      containsCmd (L.foldl addCommand n) t = true →
        containsCmd n t = true ∨ t ∈ L := by
  intro L
  induction L with
  | nil => intro n h; exact Or.inl h
  | cons s L ih =>
      intro n h
      rcases ih _ h with h' | h'
      · rcases containsCmd_addCommand_inv s t n h' with h'' | h''
        · exact Or.inl h''
        · exact Or.inr (List.mem_cons.mpr (Or.inl h''))
      · exact Or.inr (List.mem_cons.mpr (Or.inr h'))

theorem hasPath_foldl_inv {t : List Char} :
    ∀ (L : List (List Char)) (n : YasperCommandTreeNode),
      hasPath (L.foldl addCommand n) t = true →
        hasPath n t = true ∨ ∃ D ∈ L, ∃ u, t ++ u = D := by
  intro L
  induction L with
  | nil => intro n h; exact Or.inl h
  | cons s L ih =>
      intro n h
      rcases ih _ h with h' | h'
      · rcases hasPath_addCommand_inv s t n h' with h'' | h''
        · exact Or.inl h''
        · exact Or.inr ⟨s, List.mem_cons.mpr (Or.inl rfl), h''⟩
      · rcases h' with ⟨D, hD, hu⟩
        exact Or.inr ⟨D, List.mem_cons.mpr (Or.inr hD), hu⟩

theorem foldl_c :
    ∀ (L : List (List Char)) (n : YasperCommandTreeNode),
      (L.foldl addCommand n).c = n.c := by
  intro L
  induction L with
  | nil => intro n; rfl
  | cons s L ih => intro n; rw [List.foldl_cons, ih, addCommand_c]

theorem containsCmd_root (t : List Char) :
    containsCmd YasperCommandTree.root t = false := by
  cases t with
  | nil => rfl
  | cons y q => exact containsCmd_cons_none (by rfl) q

theorem hasPath_root {t : List Char}
    (h : hasPath YasperCommandTree.root t = true) : t = [] := by
  cases t with
  | nil => rfl
  | cons y q =>
      rw [hasPath_cons_none (by rfl)] at h
      exact absurd h (by simp)

theorem updateMaxDescendants_c (n : YasperCommandTreeNode) :
    (updateMaxDescendants n).c = n.c := by
  cases n; rfl

theorem updateMaxDescendants_terminal (n : YasperCommandTreeNode) :
    (updateMaxDescendants n).terminal = n.terminal := by
  cases n; rfl

theorem updateMaxDescendants_children (n : YasperCommandTreeNode) :
    (updateMaxDescendants n).children = updateMaxDescendantsList n.children := by
  cases n; rfl

theorem updateMaxDescendantsList_length :
    ∀ l : List YasperCommandTreeNode,
      (updateMaxDescendantsList l).length = l.length := by
  intro l
  induction l with
  | nil => rfl
  | cons k ks ih =>
      rw [updateMaxDescendantsList, List.length_cons, List.length_cons, ih]

theorem getChild_updateMaxDescendantsList (x : Char) :
    ∀ l : List YasperCommandTreeNode,
      getChild (updateMaxDescendantsList l) x =
        Option.map updateMaxDescendants (getChild l x) := by
  intro l
  induction l with
  | nil => rfl
  | cons k ks ih =>
      rw [updateMaxDescendantsList, getChild]
      by_cases hc : k.c = [x]
      · rw [if_pos (by rw [updateMaxDescendants_c]; exact hc), getChild, if_pos hc]
        rfl
      · rw [if_neg (by rw [updateMaxDescendants_c]; exact hc), getChild, if_neg hc]
        exact ih

theorem followPath_updateMaxDescendants :
    ∀ (P : List Char) (n : YasperCommandTreeNode),
      followPath (updateMaxDescendants n) P =
        Option.map updateMaxDescendants (followPath n P) := by
  intro P
  induction P with
  | nil => intro n; rfl
  | cons x rest ih =>
      intro n
      rw [followPath, updateMaxDescendants_children,
        getChild_updateMaxDescendantsList]
      cases heq : getChild n.children x with
      | none => simp [followPath, heq]
      | some k =>
          have hr : followPath n (x :: rest) = followPath k rest := by
            simp only [followPath, heq]
          show followPath (updateMaxDescendants k) rest =
            Option.map updateMaxDescendants (followPath n (x :: rest))
          rw [ih k, hr]

theorem containsCmd_updateMaxDescendants (n : YasperCommandTreeNode)
    (P : List Char) :
    containsCmd (updateMaxDescendants n) P = containsCmd n P := by
  rw [containsCmd, containsCmd, followPath_updateMaxDescendants]
  cases followPath n P with
  | none => rfl
  | some e => simp [updateMaxDescendants_terminal]

theorem hasPath_updateMaxDescendants (n : YasperCommandTreeNode)
    (P : List Char) :
    hasPath (updateMaxDescendants n) P = hasPath n P := by
  rw [hasPath, hasPath, followPath_updateMaxDescendants]
  cases followPath n P with
  | none => rfl
  | some e => rfl

theorem mdOkList_mem :
    ∀ {l : List YasperCommandTreeNode} {k : YasperCommandTreeNode},
      mdOkList l = true → k ∈ l → mdOk k = true := by
  intro l
  induction l with
  | nil => intro k _ hk; exact absurd hk (List.not_mem_nil k)
  | cons a l ih =>
      intro k h hk
      rw [mdOkList, Bool.and_eq_true] at h
      rcases List.mem_cons.mp hk with h' | h'
      · rw [h']; exact h.1
      · exact ih h.2 h'

theorem maxMdList_ge :
    ∀ {l : List YasperCommandTreeNode} {k : YasperCommandTreeNode},
      k ∈ l → k.maxdescendants ≤ maxMdList l := by
  intro l
  induction l with
  | nil => intro k hk; exact absurd hk (List.not_mem_nil k)
  | cons a l ih =>
      intro k hk
      rw [maxMdList]
      rcases List.mem_cons.mp hk with h' | h'
      · rw [h']; exact Nat.le_max_left _ _
      · exact Nat.le_trans (ih h') (Nat.le_max_right _ _)

theorem mdOk_spec {n : YasperCommandTreeNode} (h : mdOk n = true) :
    n.maxdescendants = max n.children.length (maxMdList n.children) ∧
      mdOkList n.children = true := by
  cases n with
  | mk c ch t m =>
      rw [mdOk, Bool.and_eq_true, beq_iff_eq] at h
      exact h

mutual

theorem mdOk_updateMaxDescendants :
    ∀ n : YasperCommandTreeNode, mdOk (updateMaxDescendants n) = true
  | .mk c ch t m => by
      simp only [updateMaxDescendants, mdOk, Bool.and_eq_true, beq_iff_eq]
      constructor
      · rw [updateMaxDescendantsList_length]
      · exact mdOkList_updateMaxDescendantsList ch

theorem mdOkList_updateMaxDescendantsList :
    ∀ l : List YasperCommandTreeNode,
      mdOkList (updateMaxDescendantsList l) = true
  | [] => rfl
  | k :: ks => by
      simp only [updateMaxDescendantsList, mdOkList, Bool.and_eq_true]
      exact ⟨mdOk_updateMaxDescendants k, mdOkList_updateMaxDescendantsList ks⟩

end

mutual

theorem wfNode_updateMaxDescendants :
    ∀ n : YasperCommandTreeNode, wfNode (updateMaxDescendants n) = wfNode n
  | .mk c ch t m => by
      have hemp : (updateMaxDescendantsList ch).isEmpty = ch.isEmpty := by
        cases ch <;> rfl
      simp only [updateMaxDescendants, wfNode]
      rw [hemp, wfList_updateMaxDescendantsList ch]

theorem wfList_updateMaxDescendantsList :
    ∀ l : List YasperCommandTreeNode,
      wfList (updateMaxDescendantsList l) = wfList l
  | [] => rfl
  | k :: ks => by
      simp only [updateMaxDescendantsList, wfList]
      rw [updateMaxDescendants_c, wfNode_updateMaxDescendants k,
        wfList_updateMaxDescendantsList ks]

end

theorem wfList_mem :
    ∀ {l : List YasperCommandTreeNode} {k : YasperCommandTreeNode},
      wfList l = true → k ∈ l → k.c.length = 1 ∧ wfNode k = true := by
  intro l
  induction l with
  | nil => intro k _ hk; exact absurd hk (List.not_mem_nil k)
  | cons a l ih =>
      intro k h hk
      rw [wfList, Bool.and_eq_true, Bool.and_eq_true, beq_iff_eq] at h
      rcases List.mem_cons.mp hk with h' | h'
      · rw [h']; exact ⟨h.1.1, h.1.2⟩
      · exact ih h.2 h'

theorem wfNode_children {n : YasperCommandTreeNode} (h : wfNode n = true) :
    wfList n.children = true := by
  cases n with
  | mk c ch t m =>
      rw [wfNode, Bool.and_eq_true] at h
      exact h.2

theorem wfNode_leaf {n : YasperCommandTreeNode} (h : wfNode n = true)
    (hch : n.children = []) : n.terminal = true := by
  cases n with
  | mk c ch t m =>
      cases hch
      rw [wfNode, Bool.and_eq_true] at h
      simpa using h.1

theorem wfList_setChild {x : Char} {m : YasperCommandTreeNode}
    (hm1 : m.c.length = 1) (hm2 : wfNode m = true) :
    ∀ {l : List YasperCommandTreeNode}, wfList l = true →
      wfList (setChild l x m) = true := by
  intro l
  induction l with
  | nil =>
      intro _
      simp only [setChild, wfList, Bool.and_eq_true, beq_iff_eq]
      exact ⟨⟨hm1, hm2⟩, trivial⟩
  | cons a l ih =>
      intro h
      rw [wfList, Bool.and_eq_true, Bool.and_eq_true, beq_iff_eq] at h
      by_cases hc : a.c = [x]
      · simp only [setChild, if_pos hc, wfList, Bool.and_eq_true, beq_iff_eq]
        exact ⟨⟨hm1, hm2⟩, h.2⟩
      · simp only [setChild, if_neg hc, wfList, Bool.and_eq_true, beq_iff_eq]
        exact ⟨h.1, ih h.2⟩

theorem setChild_isEmpty (l : List YasperCommandTreeNode) (x : Char)
    (m : YasperCommandTreeNode) : (setChild l x m).isEmpty = false := by
  cases l with
  | nil => rfl
  | cons a l => by_cases hc : a.c = [x] <;> simp [setChild, hc]

theorem wfNode_addCommand_fresh :
    ∀ (rest : List Char) (x : Char),
      wfNode (addCommand (.mk [x] [] false 0) rest) = true := by
  intro rest
  induction rest with
  | nil => intro x; rfl
  | cons y r ih =>
      intro x
      have hstep : addCommand (YasperCommandTreeNode.mk [x] [] false 0) (y :: r) =
          .mk [x] [addCommand (.mk [y] [] false 0) r] false 0 := rfl
      rw [hstep]
      simp only [wfNode, wfList, Bool.and_eq_true, Bool.or_eq_true, beq_iff_eq]
      refine ⟨Or.inl rfl, ⟨?_, ih y⟩, trivial⟩
      rw [addCommand_c]
      rfl

theorem wfNode_addCommand :
    ∀ (s : List Char) (n : YasperCommandTreeNode),
      wfList n.children = true → wfNode (addCommand n s) = true := by
  intro s
  induction s with
  | nil =>
      intro n h
      cases n with
      | mk c ch t m =>
          simp only [addCommand, wfNode, Bool.and_eq_true, Bool.or_eq_true]
          exact ⟨Or.inr trivial, h⟩
  | cons x rest ih =>
      intro n h
      have hm1 : (addCommand ((getChild n.children x).getD
          (.mk [x] [] false 0)) rest).c.length = 1 := by
        rw [addCommand_c, getD_fresh_c]
        rfl
      have hm2 : wfNode (addCommand ((getChild n.children x).getD
          (.mk [x] [] false 0)) rest) = true := by
        cases heq : getChild n.children x with
        | none =>
            exact wfNode_addCommand_fresh rest x
        | some k =>
            have hk := wfList_mem h (getChild_mem heq)
            exact ih k (wfNode_children hk.2)
      cases n with
      | mk c ch t m =>
          simp only [addCommand, wfNode, Bool.and_eq_true, Bool.or_eq_true]
          constructor
          · left
            rw [setChild_isEmpty]
            rfl
          · exact wfList_setChild hm1 hm2 h

theorem wfNode_foldl :
    ∀ (L : List (List Char)) (n : YasperCommandTreeNode),
      wfNode n = true → wfNode (List.foldl addCommand n L) = true := by
  intro L
  induction L with
  | nil => intro n h; exact h
  | cons s L ih =>
      intro n h
      exact ih _ (wfNode_addCommand s n (wfNode_children h))

theorem wfNode_build {L : List (List Char)} (h : L ≠ []) :
    wfNode (YasperCommandTree.build L) = true := by
  cases L with
  | nil => exact absurd rfl h
  | cons s L' =>
      rw [YasperCommandTree.build, wfNode_updateMaxDescendants, List.foldl_cons]
      exact wfNode_foldl L' _ (wfNode_addCommand s YasperCommandTree.root rfl)

theorem mdOk_build (L : List (List Char)) :
    mdOk (YasperCommandTree.build L) = true :=
  mdOk_updateMaxDescendants _

theorem mdOk_followPath :
    ∀ (P : List Char) (n e : YasperCommandTreeNode),
      mdOk n = true → followPath n P = some e → mdOk e = true := by
  intro P
  induction P with
  | nil =>
      intro n e h hfp
      injection hfp with hfp
      rw [← hfp]
      exact h
  | cons x rest ih =>
      intro n e h hfp
      rw [followPath] at hfp
      cases heq : getChild n.children x with
      | none => rw [heq] at hfp; exact absurd hfp (by simp)
      | some k =>
          rw [heq] at hfp
          exact ih k e (mdOkList_mem (mdOk_spec h).2 (getChild_mem heq)) hfp

theorem wfNode_followPath :
    ∀ (P : List Char) (n e : YasperCommandTreeNode),
      wfNode n = true → followPath n P = some e → wfNode e = true := by
  intro P
  induction P with
  | nil =>
      intro n e h hfp
      injection hfp with hfp
      rw [← hfp]
      exact h
  | cons x rest ih =>
      intro n e h hfp
      rw [followPath] at hfp
      cases heq : getChild n.children x with
      | none => rw [heq] at hfp; exact absurd hfp (by simp)
      | some k =>
          rw [heq] at hfp
          exact ih k e (wfList_mem (wfNode_children h) (getChild_mem heq)).2 hfp

theorem searchCommand_cons_none {n : YasperCommandTreeNode} {x : Char}
    (h : getChild n.children x = none) (rest : List Char) :
    searchCommand n (x :: rest) =
      if n.terminal = true then some n.c else none := by
  simp [searchCommand, h]

theorem searchCommand_cons_some {n k : YasperCommandTreeNode} {x : Char}
    (h : getChild n.children x = some k) (rest : List Char) :
    searchCommand n (x :: rest) =
      match searchCommand k rest with
      | none => none
      | some futuresearch => some (n.c ++ futuresearch) := by
  simp [searchCommand, h]

theorem searchCommand_exact :
    ∀ (s : List Char) (n : YasperCommandTreeNode), containsCmd n s = true →
      searchCommand n s = some (n.c ++ s) := by
  intro s
  induction s with
  | nil =>
      intro n h
      rw [containsCmd_nil] at h
      show (if n.terminal = true then some n.c
        else if n.maxdescendants = 1 then followTrail n else none) = _
      rw [if_pos h, List.append_nil]
  | cons x rest ih =>
      intro n h
      cases heq : getChild n.children x with
      | none => rw [containsCmd_cons_none heq] at h; exact absurd h (by simp)
      | some k =>
          rw [containsCmd_cons_some heq] at h
          rw [searchCommand_cons_some heq, ih k h]
          show some (n.c ++ (k.c ++ rest)) = some (n.c ++ x :: rest)
          rw [getChild_c heq]
          rfl

theorem searchCommand_over :
    ∀ (C : List Char) (n e : YasperCommandTreeNode) (y : Char) (R : List Char),
      followPath n C = some e → e.terminal = true →
      getChild e.children y = none →
      searchCommand n (C ++ y :: R) = some (n.c ++ C) := by
  intro C
  induction C with
  | nil =>
      intro n e y R hfp ht hg
      injection hfp with hfp
      subst hfp
      rw [List.nil_append, searchCommand_cons_none hg, if_pos ht, List.append_nil]
  | cons a C' ih =>
      intro n e y R hfp ht hg
      rw [followPath] at hfp
      cases heq : getChild n.children a with
      | none => rw [heq] at hfp; exact absurd hfp (by simp)
      | some k =>
          rw [heq] at hfp
          rw [List.cons_append, searchCommand_cons_some heq, ih k e y R hfp ht hg]
          show some (n.c ++ (k.c ++ C')) = some (n.c ++ a :: C')
          rw [getChild_c heq]
          rfl

theorem searchCommand_path_none :
    ∀ (P : List Char) (n e : YasperCommandTreeNode),
      followPath n P = some e → ∀ R, searchCommand e R = none →
      searchCommand n (P ++ R) = none := by
  intro P
  induction P with
  | nil =>
      intro n e hfp R h
      injection hfp with hfp
      subst hfp
      exact h
  | cons a P' ih =>
      intro n e hfp R h
      rw [followPath] at hfp
      cases heq : getChild n.children a with
      | none => rw [heq] at hfp; exact absurd hfp (by simp)
      | some k =>
          rw [heq] at hfp
          rw [List.cons_append, searchCommand_cons_some heq, ih k e hfp R h]

theorem searchCommand_path_some :
    ∀ (P : List Char) (n e : YasperCommandTreeNode),
      followPath n P = some e → ∀ (R z : List Char),
      searchCommand e R = some (e.c ++ z) →
      searchCommand n (P ++ R) = some (n.c ++ P ++ z) := by
  intro P
  induction P with
  | nil =>
      intro n e hfp R z h
      injection hfp with hfp
      subst hfp
      rw [List.nil_append, h, List.append_nil]
  | cons a P' ih =>
      intro n e hfp R z h
      rw [followPath] at hfp
      cases heq : getChild n.children a with
      | none => rw [heq] at hfp; exact absurd hfp (by simp)
      | some k =>
          rw [heq] at hfp
          rw [List.cons_append, searchCommand_cons_some heq, ih k e hfp R z h]
          show some (n.c ++ (k.c ++ P' ++ z)) = some (n.c ++ (a :: P') ++ z)
          rw [getChild_c heq]
          simp [List.append_assoc]

theorem eq_singleton_of_mem_of_le_one {ch : List YasperCommandTreeNode}
    {k : YasperCommandTreeNode} (hk : k ∈ ch) (hlen : ch.length ≤ 1) :
    ch = [k] := by
  cases ch with
  | nil => exact absurd hk (List.not_mem_nil k)
  | cons a t =>
      cases t with
      | nil =>
          rcases List.mem_cons.mp hk with h' | h'
          · rw [h']
          · exact absurd h' (List.not_mem_nil k)
      | cons b t' => simp at hlen

theorem children_length_le_md {e : YasperCommandTreeNode}
    (h : mdOk e = true) : e.children.length ≤ e.maxdescendants := by
  rw [(mdOk_spec h).1]
  exact Nat.le_max_left _ _

theorem child_md_le_md {e k : YasperCommandTreeNode} (h : mdOk e = true)
    (hk : k ∈ e.children) : k.maxdescendants ≤ e.maxdescendants := by
  rw [(mdOk_spec h).1]
  exact Nat.le_trans (maxMdList_ge hk) (Nat.le_max_right _ _)

theorem followTrail_none_of_two :
    ∀ (S₁ S₂ : List Char) (e : YasperCommandTreeNode),
      mdOk e = true → e.maxdescendants ≤ 1 →
      containsCmd e S₁ = true → containsCmd e S₂ = true → S₁ ≠ S₂ →
      followTrail e = none := by
  intro S₁
  induction S₁ with
  | nil =>
      intro S₂ e hmd hle h₁ h₂ hne
      rw [containsCmd_nil] at h₁
      cases S₂ with
      | nil => exact absurd rfl hne.symm
      | cons b q =>
          cases heq : getChild e.children b with
          | none => rw [containsCmd_cons_none heq] at h₂; exact absurd h₂ (by simp)
          | some k =>
              have hch : e.children = [k] :=
                eq_singleton_of_mem_of_le_one (getChild_mem heq)
                  (Nat.le_trans (children_length_le_md hmd) hle)
              cases e with
              | mk c ch t m =>
                  have ht : t = true := h₁
                  have hch' : ch = [k] := hch
                  subst hch'
                  simp only [followTrail, if_pos ht]
  | cons a S₁' ih =>
      intro S₂ e hmd hle h₁ h₂ hne
      cases hga : getChild e.children a with
      | none => rw [containsCmd_cons_none hga] at h₁; exact absurd h₁ (by simp)
      | some k₁ =>
          have hch : e.children = [k₁] :=
            eq_singleton_of_mem_of_le_one (getChild_mem hga)
              (Nat.le_trans (children_length_le_md hmd) hle)
          rw [containsCmd_cons_some hga] at h₁
          cases S₂ with
          | nil =>
              rw [containsCmd_nil] at h₂
              cases e with
              | mk c ch t m =>
                  have ht : t = true := h₂
                  have hch' : ch = [k₁] := hch
                  subst hch'
                  simp only [followTrail, if_pos ht]
          | cons b q =>
              cases hgb : getChild e.children b with
              | none => rw [containsCmd_cons_none hgb] at h₂; exact absurd h₂ (by simp)
              | some k₂ =>
                  have hk₂ : k₂ = k₁ := by
                    have := getChild_mem hgb
                    rw [hch] at this
                    rcases List.mem_cons.mp this with h' | h'
                    · exact h'
                    · exact absurd h' (List.not_mem_nil k₂)
                  have hab : a = b := by
                    have h1 := getChild_c hga
                    have h2 := getChild_c hgb
                    rw [hk₂, h1] at h2
                    injection h2 with h2
                  subst hab
                  rw [containsCmd_cons_some hgb, hk₂] at h₂
                  have hne' : S₁' ≠ q := by
                    intro hcontra
                    exact hne (by rw [hcontra])
                  have hmdk : mdOk k₁ = true :=
                    mdOkList_mem (mdOk_spec hmd).2 (getChild_mem hga)
                  have hlek : k₁.maxdescendants ≤ 1 :=
                    Nat.le_trans (child_md_le_md hmd (getChild_mem hga)) hle
                  have hft := ih q k₁ hmdk hlek h₁ h₂ hne'
                  cases e with
                  | mk c ch t m =>
                      have hch' : ch = [k₁] := hch
                      subst hch'
                      by_cases ht : t = true
                      · simp only [followTrail, if_pos ht]
                      · simp only [followTrail, if_neg ht, hft]

theorem followTrail_some_chain :
    ∀ (S : List Char) (e f : YasperCommandTreeNode),
      mdOk e = true → e.maxdescendants ≤ 1 →
      followPath e S = some f → f.terminal = true → f.children = [] →
      (∀ T u, T ++ u = S → u ≠ [] → containsCmd e T = false) →
      followTrail e = some (e.c ++ S) := by
  intro S
  induction S with
  | nil =>
      intro e f hmd hle hfp ht hch hT
      injection hfp with hfp
      subst hfp
      rw [List.append_nil]
      cases e with
      | mk c ch t m =>
          have hch' : ch = [] := hch
          subst hch'
          rfl
  | cons a S' ih =>
      intro e f hmd hle hfp ht hch hT
      rw [followPath] at hfp
      cases hga : getChild e.children a with
      | none => rw [hga] at hfp; exact absurd hfp (by simp)
      | some k =>
          rw [hga] at hfp
          have hchk : e.children = [k] :=
            eq_singleton_of_mem_of_le_one (getChild_mem hga)
              (Nat.le_trans (children_length_le_md hmd) hle)
          have hterm : e.terminal = false := by
            have := hT [] (a :: S') rfl (by simp)
            rw [containsCmd_nil] at this
            exact this
          have hmdk : mdOk k = true :=
            mdOkList_mem (mdOk_spec hmd).2 (getChild_mem hga)
          have hlek : k.maxdescendants ≤ 1 :=
            Nat.le_trans (child_md_le_md hmd (getChild_mem hga)) hle
          have hTk : ∀ T u, T ++ u = S' → u ≠ [] → containsCmd k T = false := by
            intro T u hTu hu
            have := hT (a :: T) u (by rw [List.cons_append, hTu]) hu
            rw [containsCmd_cons_some hga] at this
            exact this
          have hft := ih k f hmdk hlek hfp ht hch hTk
          cases e with
          | mk c ch t m =>
              have hch' : ch = [k] := hchk
              subst hch'
              have ht' : t = false := hterm
              subst ht'
              simp only [followTrail]
              rw [if_neg (by simp : ¬(false = true)), hft]
              show some (c ++ (k.c ++ S')) = some (c ++ a :: S')
              rw [getChild_c hga]
              rfl

theorem searchCommand_nil (n : YasperCommandTreeNode) :
    searchCommand n [] =
      if n.terminal = true then some n.c
      else if n.maxdescendants = 1 then followTrail n
      else none := rfl

theorem followPath_append :
    ∀ (P Q : List Char) (n : YasperCommandTreeNode),
      followPath n (P ++ Q) = (followPath n P).bind (fun e => followPath e Q) := by
  intro P Q
  induction P with
  | nil => intro n; rfl
  | cons a P' ih =>
      intro n
      rw [List.cons_append, followPath, followPath]
      cases heq : getChild n.children a with
      | none => rfl
      | some k => exact ih k

theorem containsCmd_of_followPath {n e : YasperCommandTreeNode}
    {P : List Char} (hfp : followPath n P = some e) (S : List Char) :
    containsCmd n (P ++ S) = containsCmd e S := by
  rw [containsCmd, containsCmd, followPath_append, hfp]
  rfl

theorem followPath_of_containsCmd {n : YasperCommandTreeNode} {s : List Char}
    (h : containsCmd n s = true) :
    ∃ e, followPath n s = some e ∧ e.terminal = true := by
  rw [containsCmd] at h
  cases hfp : followPath n s with
  | none => rw [hfp] at h; exact absurd h (by simp)
  | some e => rw [hfp] at h; exact ⟨e, rfl, h⟩

theorem followPath_append_some {n f : YasperCommandTreeNode} {P S : List Char}
    (h : followPath n (P ++ S) = some f) :
    ∃ e, followPath n P = some e ∧ followPath e S = some f := by
  rw [followPath_append] at h
  cases hfp : followPath n P with
  | none => rw [hfp] at h; exact absurd h (by simp)
  | some e => rw [hfp] at h; exact ⟨e, rfl, h⟩

theorem build_c (L : List (List Char)) : (YasperCommandTree.build L).c = [] := by
  rw [YasperCommandTree.build, updateMaxDescendants_c, foldl_c]
  rfl

theorem containsCmd_build_of_mem {L : List (List Char)} {C : List Char}
    (h : C ∈ L) : containsCmd (YasperCommandTree.build L) C = true := by
  rw [YasperCommandTree.build, containsCmd_updateMaxDescendants]
  exact containsCmd_foldl_self L _ h

theorem mem_of_containsCmd_build {L : List (List Char)} {C : List Char}
    (h : containsCmd (YasperCommandTree.build L) C = true) : C ∈ L := by
  rw [YasperCommandTree.build, containsCmd_updateMaxDescendants] at h
  rcases containsCmd_foldl_inv L _ h with h' | h'
  · rw [containsCmd_root] at h'
    exact absurd h' (by simp)
  · exact h'

theorem hasPath_build {L : List (List Char)} {t : List Char}
    (h : hasPath (YasperCommandTree.build L) t = true) :
    t = [] ∨ ∃ D ∈ L, ∃ u, t ++ u = D := by
  rw [YasperCommandTree.build, hasPath_updateMaxDescendants] at h
  rcases hasPath_foldl_inv L _ h with h' | h'
  · exact Or.inl (hasPath_root h')
  · exact Or.inr h'

theorem followTrail_sound :
    ∀ (e : YasperCommandTreeNode) (r : List Char),
      mdOk e = true → e.maxdescendants ≤ 1 → wfList e.children = true →
      (e.children = [] → e.terminal = true) →
      followTrail e = some r → ∃ s, containsCmd e s = true ∧ r = e.c ++ s
  | .mk c [] t md => by
      intro r hmd hle hwf hleaf hft
      injection hft with hft
      refine ⟨[], ?_, ?_⟩
      · rw [containsCmd_nil]
        exact hleaf rfl
      · show r = c ++ []
        rw [List.append_nil]
        exact hft.symm
  | .mk c [k] t md => by
      intro r hmd hle hwf hleaf hft
      by_cases ht : t = true
      · rw [show followTrail (.mk c [k] t md) =
            if t = true then none
            else match followTrail k with
              | none => none
              | some subtrail => some (c ++ subtrail) from rfl,
          if_pos ht] at hft
        exact absurd hft (by simp)
      · rw [show followTrail (.mk c [k] t md) =
            if t = true then none
            else match followTrail k with
              | none => none
              | some subtrail => some (c ++ subtrail) from rfl,
          if_neg ht] at hft
        cases hsub : followTrail k with
        | none => rw [hsub] at hft; exact absurd hft (by simp)
        | some subtrail =>
            rw [hsub] at hft
            injection hft with hft
            have hkmem : k ∈ (YasperCommandTreeNode.mk c [k] t md).children :=
              List.mem_cons_self k []
            have hkwf := wfList_mem hwf hkmem
            obtain ⟨y, hy⟩ := List.length_eq_one.mp hkwf.1
            obtain ⟨s', hs', hsub'⟩ :=
              followTrail_sound k subtrail
                (mdOkList_mem (mdOk_spec hmd).2 hkmem)
                (Nat.le_trans (child_md_le_md hmd hkmem) hle)
                (wfNode_children hkwf.2)
                (fun hch => wfNode_leaf hkwf.2 hch) hsub
            refine ⟨y :: s', ?_, ?_⟩
            · have hget : getChild (YasperCommandTreeNode.mk c [k] t md).children y
                  = some k := by
                show getChild [k] y = some k
                rw [getChild, if_pos hy]
              rw [containsCmd_cons_some hget]
              exact hs'
            · rw [← hft, hsub', hy]
              rfl
  | .mk c (a :: b :: rest) t md => by
      intro r hmd hle hwf hleaf hft
      have hlen := children_length_le_md hmd
      have : (YasperCommandTreeNode.mk c (a :: b :: rest) t md).children.length =
          rest.length + 2 := by
        show (a :: b :: rest).length = rest.length + 2
        simp
      rw [this] at hlen
      have : (YasperCommandTreeNode.mk c (a :: b :: rest) t md).maxdescendants = md :=
        rfl
      omega

theorem searchCommand_sound :
    ∀ (q : List Char) (n : YasperCommandTreeNode) (r : List Char),
      mdOk n = true → wfNode n = true →
      searchCommand n q = some r →
      ∃ s, containsCmd n s = true ∧ r = n.c ++ s := by
  intro q
  induction q with
  | nil =>
      intro n r hmd hwf h
      rw [searchCommand_nil] at h
      by_cases ht : n.terminal = true
      · rw [if_pos ht] at h
        injection h with h
        exact ⟨[], by rw [containsCmd_nil]; exact ht, by rw [← h, List.append_nil]⟩
      · rw [if_neg ht] at h
        by_cases hm1 : n.maxdescendants = 1
        · rw [if_pos hm1] at h
          exact followTrail_sound n r hmd (by rw [hm1]) (wfNode_children hwf)
            (fun hch => wfNode_leaf hwf hch) h
        · rw [if_neg hm1] at h
          exact absurd h (by simp)
  | cons x rest ih =>
      intro n r hmd hwf h
      cases heq : getChild n.children x with
      | none =>
          rw [searchCommand_cons_none heq] at h
          by_cases ht : n.terminal = true
          · rw [if_pos ht] at h
            injection h with h
            exact ⟨[], by rw [containsCmd_nil]; exact ht,
              by rw [← h, List.append_nil]⟩
          · rw [if_neg ht] at h
            exact absurd h (by simp)
      | some k =>
          rw [searchCommand_cons_some heq] at h
          cases hsc : searchCommand k rest with
          | none => rw [hsc] at h; exact absurd h (by simp)
          | some fs =>
              rw [hsc] at h
              injection h with h
              have hkmem := getChild_mem heq
              obtain ⟨s', hs', hfs⟩ := ih k fs
                (mdOkList_mem (mdOk_spec hmd).2 hkmem)
                (wfList_mem (wfNode_children hwf) hkmem).2 hsc
              refine ⟨x :: s', ?_, ?_⟩
              · rw [containsCmd_cons_some heq]
                exact hs'
              · rw [← h, hfs, getChild_c heq]
                rfl

theorem getCommand_build_nil (q : List Char) :
    YasperCommandTree.getCommand (YasperCommandTree.build []) q = none := by
  cases q with
  | nil => rfl
  | cons x rest =>
      show searchCommand (YasperCommandTree.build []) (x :: rest) = none
      rw [searchCommand_cons_none (by rfl)]
      rfl

end YasperCommandTreeNode

theorem char_toNat_ofNat {m : Nat} (h : m < 55296) : (Char.ofNat m).toNat = m := by
  have hv : Nat.isValidChar m := Or.inl h
  rw [Char.ofNat, dif_pos hv]
  rfl

theorem char_toUpper_eq (a : Char) :
    a.toUpper =
      if a.toNat ≥ 97 ∧ a.toNat ≤ 122 then Char.ofNat (a.toNat - 32) else a := rfl

theorem char_toUpper_idem (a : Char) : a.toUpper.toUpper = a.toUpper := by
  by_cases h : a.toNat ≥ 97 ∧ a.toNat ≤ 122
  · have h2 : a.toUpper.toNat = a.toNat - 32 := by
      rw [char_toUpper_eq, if_pos h]
      exact char_toNat_ofNat (by omega)
    rw [char_toUpper_eq a.toUpper, if_neg (by rw [h2]; omega)]
  · have h1 : a.toUpper = a := by rw [char_toUpper_eq a, if_neg h]
    rw [h1]
    exact h1

theorem upper_idem (s : List Char) : upper (upper s) = upper s := by
  rw [upper, upper, List.map_map]
  apply List.map_congr_left
  intro a _
  exact char_toUpper_idem a

open YasperCommandTreeNode

/-- C1: for every registered command set with pairwise-distinct (stored,
case-normalized) commands, resolving the exact string of a registered
command C succeeds and returns C itself — including when C is a proper
prefix of another registered command, because searchCommand checks the
terminal flag before any ambiguity handling. -/
theorem C1_exact_resolution (L : List (List Char)) (C : List Char)
    (hnodup : L.Nodup) (hC : C ∈ L) :
    YasperCommandTree.getCommand (YasperCommandTree.build L) C = some C := by
  show searchCommand (YasperCommandTree.build L) C = some C
  rw [searchCommand_exact C (YasperCommandTree.build L)
    (containsCmd_build_of_mem hC), build_c]
  rfl

/-- Witness for C1 at the set made of ADD and ADDN, with C = ADD a proper
prefix of ADDN. -/
theorem C1_exact_resolution_witness :
    ([['A', 'D', 'D'], ['A', 'D', 'D', 'N']] : List (List Char)).Nodup ∧
      ['A', 'D', 'D'] ∈ ([['A', 'D', 'D'], ['A', 'D', 'D', 'N']] : List (List Char)) ∧
      YasperCommandTree.getCommand
        (YasperCommandTree.build [['A', 'D', 'D'], ['A', 'D', 'D', 'N']])
        ['A', 'D', 'D'] = some ['A', 'D', 'D'] :=
  ⟨by decide, by decide, C1_exact_resolution _ _ (by decide) (by decide)⟩

/-- C2 counterexample: ADD and its strict extension ADDN are both
registered, yet resolving the exact string ADD does not return the
ambiguous failure value — it succeeds and returns ADD. -/
theorem C2_counterexample :
    ['A', 'D', 'D'] ∈ ([['A', 'D', 'D'], ['A', 'D', 'D', 'N']] : List (List Char)) ∧
      ['A', 'D', 'D'] ++ ['N'] ∈
        ([['A', 'D', 'D'], ['A', 'D', 'D', 'N']] : List (List Char)) ∧
      (['N'] : List Char) ≠ [] ∧
      YasperCommandTree.getCommand
        (YasperCommandTree.build [['A', 'D', 'D'], ['A', 'D', 'D', 'N']])
        ['A', 'D', 'D'] = some ['A', 'D', 'D'] :=
  ⟨by decide, by decide, by decide, by decide⟩

/-- C2 amended: when a registered command C is a proper prefix of another
registered command C ++ s, resolving the exact string C does NOT fail as
ambiguous: the terminal check precedes the ambiguity check, so resolve(C)
returns C itself. -/
theorem C2_amended_exact_wins (L : List (List Char)) (C s : List Char)
    (hC : C ∈ L) (hext : C ++ s ∈ L) (hs : s ≠ []) :
    YasperCommandTree.getCommand (YasperCommandTree.build L) C = some C := by
  show searchCommand (YasperCommandTree.build L) C = some C
  rw [searchCommand_exact C (YasperCommandTree.build L)
    (containsCmd_build_of_mem hC), build_c]
  rfl

/-- Witness for the amended C2 at the set made of ADD and ADDN. -/
theorem C2_amended_exact_wins_witness :
    ['A', 'D', 'D'] ∈ ([['A', 'D', 'D'], ['A', 'D', 'D', 'N']] : List (List Char)) ∧
      ['A', 'D', 'D'] ++ ['N'] ∈
        ([['A', 'D', 'D'], ['A', 'D', 'D', 'N']] : List (List Char)) ∧
      (['N'] : List Char) ≠ [] ∧
      YasperCommandTree.getCommand
        (YasperCommandTree.build [['A', 'D', 'D'], ['A', 'D', 'D', 'N']])
        ['A', 'D', 'D'] = some ['A', 'D', 'D'] :=
  ⟨by decide, by decide, by decide,
    C2_amended_exact_wins _ _ ['N'] (by decide) (by decide) (by decide)⟩

theorem append_eq_self_nil {α : Type} {l u : List α} (h : l ++ u = l) :
    u = [] := by
  have hlen := congrArg List.length h
  rw [List.length_append] at hlen
  have : u.length = 0 := by omega
  exact List.eq_nil_of_length_eq_zero this

/-- C3: overcompletion — for every registered command C and extra query
characters starting with a character x₀ such that no registered command
starts with C followed by x₀, resolving C plus the extra characters
succeeds and returns C, discarding the extra trailing characters. -/
theorem C3_overcompletion (L : List (List Char)) (C X' : List Char) (x₀ : Char)
    (hC : C ∈ L)
    (hno : ∀ D ∈ L, ∀ u, C ++ x₀ :: u ≠ D) :
    YasperCommandTree.getCommand (YasperCommandTree.build L) (C ++ x₀ :: X') =
      some C := by
  obtain ⟨e, hfp, ht⟩ := followPath_of_containsCmd (containsCmd_build_of_mem hC)
  have hg : getChild e.children x₀ = none := by
    cases hg : getChild e.children x₀ with
    | none => rfl
    | some k =>
        exfalso
        have hp : hasPath (YasperCommandTree.build L) (C ++ [x₀]) = true := by
          rw [hasPath, followPath_append, hfp]
          show (followPath e [x₀]).isSome = true
          rw [followPath, hg]
          rfl
        rcases hasPath_build hp with h' | ⟨D, hD, u, hu⟩
        · exact absurd h' (by simp)
        · rw [List.append_assoc] at hu
          exact hno D hD u hu
  show searchCommand (YasperCommandTree.build L) (C ++ x₀ :: X') = some C
  rw [searchCommand_over C (YasperCommandTree.build L) e x₀ X' hfp ht hg, build_c]
  rfl

/-- Witness for C3 at the driver's command set: ADDQWERTY resolves to ADD
(no registered command starts with ADDQ). -/
theorem C3_overcompletion_witness :
    ['A', 'D', 'D'] ∈
      ([['A', 'D', 'D'], ['A', 'D', 'D', 'N'],
        ['S', 'U', 'B', 'T', 'R', 'A', 'C', 'T'],
        ['E', 'N', 'C', 'O', 'U', 'R', 'A', 'G', 'E']] : List (List Char)) ∧
      (∀ D ∈ ([['A', 'D', 'D'], ['A', 'D', 'D', 'N'],
          ['S', 'U', 'B', 'T', 'R', 'A', 'C', 'T'],
          ['E', 'N', 'C', 'O', 'U', 'R', 'A', 'G', 'E']] : List (List Char)),
        ∀ u, ['A', 'D', 'D'] ++ 'Q' :: u ≠ D) ∧
      YasperCommandTree.getCommand
        (YasperCommandTree.build
          [['A', 'D', 'D'], ['A', 'D', 'D', 'N'],
            ['S', 'U', 'B', 'T', 'R', 'A', 'C', 'T'],
            ['E', 'N', 'C', 'O', 'U', 'R', 'A', 'G', 'E']])
        (['A', 'D', 'D'] ++ 'Q' :: ['W', 'E', 'R', 'T', 'Y']) =
        some ['A', 'D', 'D'] :=
  ⟨by decide,
    by intro D hD u; fin_cases hD <;> simp,
    C3_overcompletion _ _ _ 'Q' (by decide)
      (by intro D hD u; fin_cases hD <;> simp)⟩

/-- C4 counterexample: with AB and ABCD registered, take C = ABCD (no other
registered command extends it) and its non-empty strict prefix P = AB,
whose node has maxdescendants 1; resolve(AB) returns AB — the registered
prefix command itself — not ABCD as the claim requires. -/
theorem C4_counterexample :
    ['A', 'B', 'C', 'D'] ∈ ([['A', 'B'], ['A', 'B', 'C', 'D']] : List (List Char)) ∧
      (∀ D ∈ ([['A', 'B'], ['A', 'B', 'C', 'D']] : List (List Char)),
        ∀ u, ['A', 'B', 'C', 'D'] ++ u = D → u = []) ∧
      ['A', 'B'] ++ ['C', 'D'] = ['A', 'B', 'C', 'D'] ∧
      (['A', 'B'] : List Char) ≠ [] ∧
      (['C', 'D'] : List Char) ≠ [] ∧
      (∃ e, followPath (YasperCommandTree.build [['A', 'B'], ['A', 'B', 'C', 'D']])
          ['A', 'B'] = some e ∧ e.maxdescendants = 1) ∧
      YasperCommandTree.getCommand
        (YasperCommandTree.build [['A', 'B'], ['A', 'B', 'C', 'D']]) ['A', 'B'] =
        some ['A', 'B'] ∧
      some (['A', 'B'] : List Char) ≠ some ['A', 'B', 'C', 'D'] :=
  ⟨by decide,
    by
      intro D hD u hu
      fin_cases hD
      · exfalso
        have hlen := congrArg List.length hu
        rw [List.length_append] at hlen
        simp only [List.length_cons, List.length_nil] at hlen
        omega
      · exact append_eq_self_nil hu,
    by decide, by decide, by decide,
    ⟨.mk ['B'] [.mk ['C'] [.mk ['D'] [] true 0] false 1] true 1, rfl, rfl⟩,
    by decide, by decide⟩

/-- C4 amended: undercompletion — a non-empty strict prefix P of a
registered command C resolves to C when (i) no other registered command
extends C, (ii) the node reached by P has maxdescendants 1, and (iii) —
the condition the counterexample forces — no registered command other
than C lies between P and C on the walk (in particular P itself is not
registered). -/
theorem C4_amended_undercompletion (L : List (List Char)) (P S C : List Char)
    (e : YasperCommandTreeNode)
    (hC : C ∈ L)
    (hPS : P ++ S = C) (hP : P ≠ []) (hS : S ≠ [])
    (hnoext : ∀ D ∈ L, ∀ u, C ++ u = D → u = [])
    (hfp : followPath (YasperCommandTree.build L) P = some e)
    (hmd : e.maxdescendants = 1)
    (hbetween : ∀ Q ∈ L, (∃ u, P ++ u = Q) → (∃ v, Q ++ v = C) → Q = C) :
    YasperCommandTree.getCommand (YasperCommandTree.build L) P = some C := by
  have hLne : L ≠ [] := by
    intro h
    rw [h] at hC
    exact absurd hC (List.not_mem_nil C)
  have hmde : mdOk e = true := mdOk_followPath P _ e (mdOk_build L) hfp
  have hwfe : wfNode e = true := wfNode_followPath P _ e (wfNode_build hLne) hfp
  have hcontS : containsCmd e S = true := by
    rw [← containsCmd_of_followPath hfp S, hPS]
    exact containsCmd_build_of_mem hC
  obtain ⟨f, hfpS, htf⟩ := followPath_of_containsCmd hcontS
  have hTcond : ∀ T u, T ++ u = S → u ≠ [] → containsCmd e T = false := by
    intro T u hTu hu
    cases hct : containsCmd e T with
    | false => rfl
    | true =>
        exfalso
        have hmem : P ++ T ∈ L := by
          apply mem_of_containsCmd_build
          rw [containsCmd_of_followPath hfp T]
          exact hct
        have hQ := hbetween (P ++ T) hmem ⟨T, rfl⟩
          ⟨u, by rw [List.append_assoc, hTu, hPS]⟩
        have hTS : T = S := List.append_cancel_left (hQ.trans hPS.symm)
        rw [hTS] at hTu
        exact hu (append_eq_self_nil hTu)
  have hchf : f.children = [] := by
    cases hch : f.children with
    | nil => rfl
    | cons k t =>
        exfalso
        have hwff : wfNode f = true := wfNode_followPath S e f hwfe hfpS
        have hkmem : k ∈ f.children := by
          rw [hch]
          exact List.mem_cons_self k t
        obtain ⟨y, hy⟩ :=
          List.length_eq_one.mp (wfList_mem (wfNode_children hwff) hkmem).1
        have hgk : getChild f.children y = some k := by
          rw [hch, getChild, if_pos hy]
        have hfpC : followPath (YasperCommandTree.build L) C = some f := by
          rw [← hPS, followPath_append, hfp]
          exact hfpS
        have hp : hasPath (YasperCommandTree.build L) (C ++ [y]) = true := by
          rw [hasPath, followPath_append, hfpC]
          show (followPath f [y]).isSome = true
          rw [followPath, hgk]
          rfl
        rcases hasPath_build hp with h' | ⟨D, hD, u, hu⟩
        · exact absurd h' (by simp)
        · rw [List.append_assoc] at hu
          have := hnoext D hD ([y] ++ u) hu
          exact absurd this (by simp)
  have hte : e.terminal = false := by
    have := hTcond [] S rfl hS
    rw [containsCmd_nil] at this
    exact this
  have hft := followTrail_some_chain S e f hmde (by rw [hmd]) hfpS htf hchf hTcond
  have hsce : searchCommand e [] = some (e.c ++ S) := by
    rw [searchCommand_nil, if_neg (by simp [hte]), if_pos hmd]
    exact hft
  show searchCommand (YasperCommandTree.build L) P = some C
  have hfin := searchCommand_path_some P _ e hfp [] S hsce
  rw [List.append_nil] at hfin
  rw [hfin, build_c, List.nil_append, hPS]

/-- Witness for the amended C4: with AB the only registered command, the
prefix A undercompletes to AB. -/
theorem C4_amended_undercompletion_witness :
    ['A', 'B'] ∈ ([['A', 'B']] : List (List Char)) ∧
      ['A'] ++ ['B'] = ['A', 'B'] ∧
      (['A'] : List Char) ≠ [] ∧ (['B'] : List Char) ≠ [] ∧
      (∀ D ∈ ([['A', 'B']] : List (List Char)),
        ∀ u, ['A', 'B'] ++ u = D → u = []) ∧
      followPath (YasperCommandTree.build [['A', 'B']]) ['A'] =
        some (.mk ['A'] [.mk ['B'] [] true 0] false 1) ∧
      (YasperCommandTreeNode.mk ['A'] [.mk ['B'] [] true 0] false 1).maxdescendants
        = 1 ∧
      YasperCommandTree.getCommand (YasperCommandTree.build [['A', 'B']]) ['A'] =
        some ['A', 'B'] :=
  ⟨by decide, by decide, by decide, by decide,
    by
      intro D hD u hu
      fin_cases hD
      exact append_eq_self_nil hu,
    rfl, rfl,
    C4_amended_undercompletion [['A', 'B']] ['A'] ['B'] ['A', 'B']
      (.mk ['A'] [.mk ['B'] [] true 0] false 1)
      (by decide) (by decide) (by decide) (by decide)
      (by
        intro D hD u hu
        fin_cases hD
        exact append_eq_self_nil hu)
      rfl rfl
      (by
        intro Q hQ h1 h2
        fin_cases hQ
        rfl)⟩

/-- C5 counterexample: ABC and ABD are distinct registered commands sharing
the common prefix AB, shorter than either; yet resolve(AB) does not fail —
AB is itself registered, so it resolves to AB. -/
theorem C5_counterexample :
    ['A', 'B', 'C'] ∈
      ([['A', 'B'], ['A', 'B', 'C'], ['A', 'B', 'D']] : List (List Char)) ∧
      ['A', 'B', 'D'] ∈
        ([['A', 'B'], ['A', 'B', 'C'], ['A', 'B', 'D']] : List (List Char)) ∧
      (['A', 'B', 'C'] : List Char) ≠ ['A', 'B', 'D'] ∧
      ['A', 'B'] ++ ['C'] = ['A', 'B', 'C'] ∧
      ['A', 'B'] ++ ['D'] = ['A', 'B', 'D'] ∧
      (['C'] : List Char) ≠ [] ∧ (['D'] : List Char) ≠ [] ∧
      YasperCommandTree.getCommand
        (YasperCommandTree.build [['A', 'B'], ['A', 'B', 'C'], ['A', 'B', 'D']])
        ['A', 'B'] = some ['A', 'B'] :=
  ⟨by decide, by decide, by decide, by decide, by decide, by decide, by decide,
    by decide⟩

/-- C5 amended: when two distinct registered commands strictly extend a
common prefix P and P is not itself registered, resolve(P) fails
(returns the single failure value None, covering Ambiguous). -/
theorem C5_amended_common_prefix_ambiguous (L : List (List Char))
    (P S₁ S₂ D₁ D₂ : List Char)
    (h₁ : D₁ ∈ L) (h₂ : D₂ ∈ L) (hne : D₁ ≠ D₂)
    (hd₁ : P ++ S₁ = D₁) (hd₂ : P ++ S₂ = D₂)
    (hs₁ : S₁ ≠ []) (hs₂ : S₂ ≠ []) (hPnot : P ∉ L) :
    YasperCommandTree.getCommand (YasperCommandTree.build L) P = none := by
  have hc₁ : containsCmd (YasperCommandTree.build L) (P ++ S₁) = true := by
    rw [hd₁]
    exact containsCmd_build_of_mem h₁
  have hc₂ : containsCmd (YasperCommandTree.build L) (P ++ S₂) = true := by
    rw [hd₂]
    exact containsCmd_build_of_mem h₂
  obtain ⟨f₁, hf₁, ht₁⟩ := followPath_of_containsCmd hc₁
  obtain ⟨e, hfpP, hfS₁⟩ := followPath_append_some hf₁
  have hcS₁ : containsCmd e S₁ = true := by
    rw [← containsCmd_of_followPath hfpP S₁]
    exact hc₁
  have hcS₂ : containsCmd e S₂ = true := by
    rw [← containsCmd_of_followPath hfpP S₂]
    exact hc₂
  have hte : e.terminal = false := by
    cases hte : e.terminal with
    | false => rfl
    | true =>
        exfalso
        apply hPnot
        apply mem_of_containsCmd_build
        rw [← List.append_nil P, containsCmd_of_followPath hfpP, containsCmd_nil]
        exact hte
  have hS₁S₂ : S₁ ≠ S₂ := by
    intro hcontra
    apply hne
    rw [← hd₁, ← hd₂, hcontra]
  have hmde : mdOk e = true := mdOk_followPath P _ e (mdOk_build L) hfpP
  have hsce : searchCommand e [] = none := by
    rw [searchCommand_nil, if_neg (by simp [hte])]
    by_cases hm1 : e.maxdescendants = 1
    · rw [if_pos hm1]
      exact followTrail_none_of_two S₁ S₂ e hmde (by rw [hm1]) hcS₁ hcS₂ hS₁S₂
    · rw [if_neg hm1]
  show searchCommand (YasperCommandTree.build L) P = none
  have hfin := searchCommand_path_none P _ e hfpP [] hsce
  rw [List.append_nil] at hfin
  exact hfin

/-- Witness for the amended C5 at the driver's command set: AD is a common
strict prefix of ADD and ADDN and is not registered, so resolve(AD)
fails. -/
theorem C5_amended_common_prefix_ambiguous_witness :
    ['A', 'D', 'D'] ∈
      ([['A', 'D', 'D'], ['A', 'D', 'D', 'N'],
        ['S', 'U', 'B', 'T', 'R', 'A', 'C', 'T'],
        ['E', 'N', 'C', 'O', 'U', 'R', 'A', 'G', 'E']] : List (List Char)) ∧
      ['A', 'D', 'D', 'N'] ∈
        ([['A', 'D', 'D'], ['A', 'D', 'D', 'N'],
          ['S', 'U', 'B', 'T', 'R', 'A', 'C', 'T'],
          ['E', 'N', 'C', 'O', 'U', 'R', 'A', 'G', 'E']] : List (List Char)) ∧
      (['A', 'D', 'D'] : List Char) ≠ ['A', 'D', 'D', 'N'] ∧
      ['A', 'D'] ++ ['D'] = ['A', 'D', 'D'] ∧
      ['A', 'D'] ++ ['D', 'N'] = ['A', 'D', 'D', 'N'] ∧
      (['D'] : List Char) ≠ [] ∧ (['D', 'N'] : List Char) ≠ [] ∧
      ['A', 'D'] ∉
        ([['A', 'D', 'D'], ['A', 'D', 'D', 'N'],
          ['S', 'U', 'B', 'T', 'R', 'A', 'C', 'T'],
          ['E', 'N', 'C', 'O', 'U', 'R', 'A', 'G', 'E']] : List (List Char)) ∧
      YasperCommandTree.getCommand
        (YasperCommandTree.build
          [['A', 'D', 'D'], ['A', 'D', 'D', 'N'],
            ['S', 'U', 'B', 'T', 'R', 'A', 'C', 'T'],
            ['E', 'N', 'C', 'O', 'U', 'R', 'A', 'G', 'E']])
        ['A', 'D'] = none :=
  ⟨by decide, by decide, by decide, by decide, by decide, by decide, by decide,
    by decide,
    C5_amended_common_prefix_ambiguous _ ['A', 'D'] ['D'] ['D', 'N']
      ['A', 'D', 'D'] ['A', 'D', 'D', 'N'] (by decide) (by decide) (by decide)
      (by decide) (by decide) (by decide) (by decide) (by decide)⟩

/-- C6 counterexample: with only AB registered (so the tree is one
deterministic chain), the empty string is not registered, yet resolving the
empty query does not fail: it undercompletes to AB. -/
theorem C6_counterexample :
    ([] : List Char) ∉ ([['A', 'B']] : List (List Char)) ∧
      YasperCommandTree.getCommand (YasperCommandTree.build [['A', 'B']]) [] =
        some ['A', 'B'] :=
  ⟨by decide, by decide⟩

/-- C6 amended: the empty query fails when the empty string is not
registered AND the root's maxdescendants is not 1 (otherwise the empty
query is treated as an undercompletion of the unique chain and may
resolve). -/
theorem C6_amended_empty_query (L : List (List Char)) (h0 : ([] : List Char) ∉ L)
    (hmd : (YasperCommandTree.build L).maxdescendants ≠ 1) :
    YasperCommandTree.getCommand (YasperCommandTree.build L) [] = none := by
  have hterm : (YasperCommandTree.build L).terminal = false := by
    cases ht : (YasperCommandTree.build L).terminal with
    | false => rfl
    | true =>
        exfalso
        apply h0
        apply mem_of_containsCmd_build
        rw [containsCmd_nil]
        exact ht
  show searchCommand (YasperCommandTree.build L) [] = none
  rw [searchCommand_nil, if_neg (by simp [hterm]), if_neg hmd]

/-- Witness for the amended C6: with the two diverging commands A and B the
root has maxdescendants 2, and the empty query fails. -/
theorem C6_amended_empty_query_witness :
    ([] : List Char) ∉ ([['A'], ['B']] : List (List Char)) ∧
      (YasperCommandTree.build [['A'], ['B']]).maxdescendants ≠ 1 ∧
      YasperCommandTree.getCommand (YasperCommandTree.build [['A'], ['B']]) [] =
        none :=
  ⟨by decide, by decide,
    C6_amended_empty_query [['A'], ['B']] (by decide) (by decide)⟩

/-- C8 counterexample: on the driver's command set the ambiguous query AD
and the unmatched query YABUSA produce the very same failure value None —
the caller cannot observe two distinct error values. -/
theorem C8_counterexample :
    YasperCommandTree.getCommand
      (YasperCommandTree.build
        [['A', 'D', 'D'], ['A', 'D', 'D', 'N'],
          ['S', 'U', 'B', 'T', 'R', 'A', 'C', 'T'],
          ['E', 'N', 'C', 'O', 'U', 'R', 'A', 'G', 'E']])
      ['A', 'D'] = none ∧
      YasperCommandTree.getCommand
        (YasperCommandTree.build
          [['A', 'D', 'D'], ['A', 'D', 'D', 'N'],
            ['S', 'U', 'B', 'T', 'R', 'A', 'C', 'T'],
            ['E', 'N', 'C', 'O', 'U', 'R', 'A', 'G', 'E']])
        ['Y', 'A', 'B', 'U', 'S', 'A'] = none ∧
      YasperCommandTree.getCommand
        (YasperCommandTree.build
          [['A', 'D', 'D'], ['A', 'D', 'D', 'N'],
            ['S', 'U', 'B', 'T', 'R', 'A', 'C', 'T'],
            ['E', 'N', 'C', 'O', 'U', 'R', 'A', 'G', 'E']])
        ['A', 'D'] =
        YasperCommandTree.getCommand
          (YasperCommandTree.build
            [['A', 'D', 'D'], ['A', 'D', 'D', 'N'],
              ['S', 'U', 'B', 'T', 'R', 'A', 'C', 'T'],
              ['E', 'N', 'C', 'O', 'U', 'R', 'A', 'G', 'E']])
          ['Y', 'A', 'B', 'U', 'S', 'A'] :=
  ⟨by decide, by decide, by decide⟩

/-- C8 amended: resolution reports failure through the single value None for
both failure kinds (ambiguous and no-match); any two failing resolutions
are indistinguishable by their returned value. -/
theorem C8_amended_single_failure_value (L₁ L₂ : List (List Char))
    (q₁ q₂ : List Char)
    (hf₁ : YasperCommandTree.getCommand (YasperCommandTree.build L₁) q₁ = none)
    (hf₂ : YasperCommandTree.getCommand (YasperCommandTree.build L₂) q₂ = none) :
    YasperCommandTree.getCommand (YasperCommandTree.build L₁) q₁ =
      YasperCommandTree.getCommand (YasperCommandTree.build L₂) q₂ := by
  rw [hf₁, hf₂]

/-- Witness for the amended C8: the ambiguous query AD and the unmatched
query YABUSA on the driver's command set return equal (None) results. -/
theorem C8_amended_single_failure_value_witness :
    YasperCommandTree.getCommand
      (YasperCommandTree.build
        [['A', 'D', 'D'], ['A', 'D', 'D', 'N'],
          ['S', 'U', 'B', 'T', 'R', 'A', 'C', 'T'],
          ['E', 'N', 'C', 'O', 'U', 'R', 'A', 'G', 'E']])
      ['A', 'D'] = none ∧
      YasperCommandTree.getCommand
        (YasperCommandTree.build
          [['A', 'D', 'D'], ['A', 'D', 'D', 'N'],
            ['S', 'U', 'B', 'T', 'R', 'A', 'C', 'T'],
            ['E', 'N', 'C', 'O', 'U', 'R', 'A', 'G', 'E']])
        ['Y', 'A', 'B', 'U', 'S', 'A'] = none ∧
      YasperCommandTree.getCommand
        (YasperCommandTree.build
          [['A', 'D', 'D'], ['A', 'D', 'D', 'N'],
            ['S', 'U', 'B', 'T', 'R', 'A', 'C', 'T'],
            ['E', 'N', 'C', 'O', 'U', 'R', 'A', 'G', 'E']])
        ['A', 'D'] =
        YasperCommandTree.getCommand
          (YasperCommandTree.build
            [['A', 'D', 'D'], ['A', 'D', 'D', 'N'],
              ['S', 'U', 'B', 'T', 'R', 'A', 'C', 'T'],
              ['E', 'N', 'C', 'O', 'U', 'R', 'A', 'G', 'E']])
          ['Y', 'A', 'B', 'U', 'S', 'A'] :=
  ⟨by decide, by decide,
    C8_amended_single_failure_value _ _ _ _ (by decide) (by decide)⟩

/-- C7: commands are stored upper-cased and the query is upper-cased before
the tree walk, so resolution is case-insensitive at the resolve boundary:
resolving q and resolving the upper-cased q give the same result. -/
theorem C7_case_insensitive (registered : List (List Char)) (q : List Char) :
    Yasper.resolve registered q = Yasper.resolve registered (upper q) := by
  simp only [Yasper.resolve]
  rw [upper_idem]

/-- C9: soundness of resolution — every successful resolution returns a
member of the command list the tree was built from; resolve never
fabricates an unregistered command name. -/
theorem C9_soundness (L : List (List Char)) (q r : List Char)
    (h : YasperCommandTree.getCommand (YasperCommandTree.build L) q = some r) :
    r ∈ L := by
  cases L with
  | nil =>
      rw [getCommand_build_nil] at h
      exact absurd h (by simp)
  | cons D L' =>
      have h' : searchCommand (YasperCommandTree.build (D :: L')) q = some r := h
      obtain ⟨s, hs, hr⟩ := searchCommand_sound q _ r (mdOk_build _)
        (wfNode_build (by simp)) h'
      rw [build_c, List.nil_append] at hr
      rw [hr]
      exact mem_of_containsCmd_build hs

/-- Witness for C9: on the driver's command set, the undercompleted query S
resolves to SUBTRACT, which is a member of the set. -/
theorem C9_soundness_witness :
    YasperCommandTree.getCommand
      (YasperCommandTree.build
        [['A', 'D', 'D'], ['A', 'D', 'D', 'N'],
          ['S', 'U', 'B', 'T', 'R', 'A', 'C', 'T'],
          ['E', 'N', 'C', 'O', 'U', 'R', 'A', 'G', 'E']])
      ['S'] = some ['S', 'U', 'B', 'T', 'R', 'A', 'C', 'T'] ∧
    ['S', 'U', 'B', 'T', 'R', 'A', 'C', 'T'] ∈
      ([['A', 'D', 'D'], ['A', 'D', 'D', 'N'],
        ['S', 'U', 'B', 'T', 'R', 'A', 'C', 'T'],
        ['E', 'N', 'C', 'O', 'U', 'R', 'A', 'G', 'E']] : List (List Char)) :=
  ⟨by decide, C9_soundness _ ['S'] _ (by decide)⟩

/-- C10: no backtracking on divergence — when the walk for the query
diverges (no child for the next query character) at a node that is not
terminal, resolution fails, and the failure propagates upward unchanged. -/
theorem C10_no_backtracking (L : List (List Char)) (Q R : List Char)
    (y : Char) (e : YasperCommandTreeNode)
    (hfp : followPath (YasperCommandTree.build L) Q = some e)
    (hg : getChild e.children y = none)
    (ht : e.terminal = false) :
    YasperCommandTree.getCommand (YasperCommandTree.build L) (Q ++ y :: R) =
      none := by
  show searchCommand (YasperCommandTree.build L) (Q ++ y :: R) = none
  apply searchCommand_path_none Q _ e hfp
  rw [searchCommand_cons_none hg, if_neg (by simp [ht])]

/-- Witness for C10: with AB and ABCD registered, the query ABCX diverges
at the non-terminal C node, so resolution fails instead of backtracking to
the registered command AB. -/
theorem C10_no_backtracking_witness :
    followPath (YasperCommandTree.build [['A', 'B'], ['A', 'B', 'C', 'D']])
        ['A', 'B', 'C'] =
      some (.mk ['C'] [.mk ['D'] [] true 0] false 1) ∧
    getChild (YasperCommandTreeNode.mk ['C'] [.mk ['D'] [] true 0] false 1).children
        'X' = none ∧
    (YasperCommandTreeNode.mk ['C'] [.mk ['D'] [] true 0] false 1).terminal = false ∧
    YasperCommandTree.getCommand
        (YasperCommandTree.build [['A', 'B'], ['A', 'B', 'C', 'D']])
        (['A', 'B', 'C'] ++ 'X' :: []) = none :=
  ⟨rfl, rfl, rfl,
    C10_no_backtracking [['A', 'B'], ['A', 'B', 'C', 'D']] ['A', 'B', 'C'] []
      'X' (.mk ['C'] [.mk ['D'] [] true 0] false 1) rfl rfl rfl⟩
